import Mathlib

/-!
Verification of the `dirhash` Go package (willdonnelly/dirhash) against its
natural-language specification.

The development shallowly embeds the package's two functions, `HashFile` and
`HashDir`, over an explicit model of a filesystem tree.  Filenames and file
contents are lists of bytes (`List Nat`, each element below 256 in practice);
machine words in SHA-256 are `Nat` reduced modulo `2^32`.  Go's fallible calls
are modelled with `Except`:

* a `Node.nondir c` is anything whose `Stat` reports a non-directory
  (regular file, symlink, device...); `c` is the outcome of `ioutil.ReadFile`
  on it (`.error e` when the read fails);
* a `Node.dir l` is a directory; `l` is the outcome of `file.Readdir(0)`,
  a list of `(name, child)` pairs in the filesystem's enumeration order
  (`.error e` when enumeration fails).

`hashDir`, `collect`, `pseudoFile`, `escape`, `hashFile` below are translated
line by line from `HashDir`, its accumulation loop over `contents`, the
pseudo-file construction, `escape`, and `HashFile` in the Go source.  Go's
`map[string]string` values are modelled as association lists with
overwrite-on-insert (`insertA`), and `sort.Strings` as an insertion sort by
Go's byte-wise string comparison (`strLe`).
-/

/-! ## SHA-256 over byte lists -/

/-- Truncation to a 32-bit word. -/
def w32 (n : Nat) : Nat := n % 4294967296

/-- 32-bit right rotation. -/
def rotr32 (x n : Nat) : Nat := w32 ((x >>> n) ||| (x <<< (32 - n)))

def shaCh (x y z : Nat) : Nat := (x &&& y) ^^^ ((x ^^^ 4294967295) &&& z)

def shaMaj (x y z : Nat) : Nat := (x &&& y) ^^^ (x &&& z) ^^^ (y &&& z)

def bigSigma0 (x : Nat) : Nat := rotr32 x 2 ^^^ rotr32 x 13 ^^^ rotr32 x 22

def bigSigma1 (x : Nat) : Nat := rotr32 x 6 ^^^ rotr32 x 11 ^^^ rotr32 x 25

def smallSigma0 (x : Nat) : Nat := rotr32 x 7 ^^^ rotr32 x 18 ^^^ (x >>> 3)

def smallSigma1 (x : Nat) : Nat := rotr32 x 17 ^^^ rotr32 x 19 ^^^ (x >>> 10)

/-- The 64 SHA-256 round constants. -/
def sha256K : List Nat :=
  [1116352408, 1899447441, 3049323471, 3921009573, 961987163,
   1508970993, 2453635748, 2870763221, 3624381080, 310598401,
   607225278, 1426881987, 1925078388, 2162078206, 2614888103,
   3248222580, 3835390401, 4022224774, 264347078, 604807628,
   770255983, 1249150122, 1555081692, 1996064986, 2554220882,
   2821834349, 2952996808, 3210313671, 3336571891, 3584528711,
   113926993, 338241895, 666307205, 773529912, 1294757372,
   1396182291, 1695183700, 1986661051, 2177026350, 2456956037,
   2730485921, 2820302411, 3259730800, 3345764771, 3516065817,
   3600352804, 4094571909, 275423344, 430227734, 506948616,
   659060556, 883997877, 958139571, 1322822218, 1537002063,
   1747873779, 1955562222, 2024104815, 2227730452, 2361852424,
   2428436474, 2756734187, 3204031479, 3329325298]

/-- The SHA-256 initial hash state (eight 32-bit words). -/
def sha256InitState : List Nat :=
  [1779033703, 3144134277, 1013904242, 2773480762,
   1359893119, 2600822924, 528734635, 1541459225]

/-- Big-endian grouping of bytes into 32-bit words. -/
def toWords : List Nat → List Nat
  | a :: b :: c :: d :: rest => ((a <<< 24) + (b <<< 16) + (c <<< 8) + d) :: toWords rest
  | _ => []

/-- Big-endian decomposition of a 32-bit word into four bytes. -/
def wordToBytes (w : Nat) : List Nat :=
  [(w >>> 24) % 256, (w >>> 16) % 256, (w >>> 8) % 256, w % 256]

/-- SHA-256 padding: a 0x80 byte, zeros to 56 mod 64, then the bit length
as a 64-bit big-endian integer. -/
def padMsg (msg : List Nat) : List Nat :=
  let lenBits := msg.length * 8
  msg ++ 128 :: List.replicate ((64 - ((msg.length + 9) % 64)) % 64) 0 ++
    [(lenBits >>> 56) % 256, (lenBits >>> 48) % 256, (lenBits >>> 40) % 256, (lenBits >>> 32) % 256,
     (lenBits >>> 24) % 256, (lenBits >>> 16) % 256, (lenBits >>> 8) % 256, lenBits % 256]

/-- Next word of the message schedule, given the already-produced words in
reverse order (head = most recent). -/
def schedNext (racc : List Nat) : Nat :=
  w32 (smallSigma1 (racc.getD 1 0) + racc.getD 6 0 + smallSigma0 (racc.getD 14 0) + racc.getD 15 0)

def schedExtend : Nat → List Nat → List Nat
  | 0, racc => racc.reverse
  | n + 1, racc => schedExtend n (schedNext racc :: racc)

/-- Extend the 16 words of a block to the 64-word message schedule. -/
def schedule (ws : List Nat) : List Nat := schedExtend 48 ws.reverse

/-- One SHA-256 compression round on an 8-word state. -/
def sha256Round (st : List Nat) (kw : Nat × Nat) : List Nat :=
  match st with
  | [a, b, c, d, e, f, g, h] =>
    let t1 := w32 (h + bigSigma1 e + shaCh e f g + kw.1 + kw.2)
    let t2 := w32 (bigSigma0 a + shaMaj a b c)
    [w32 (t1 + t2), a, b, c, w32 (d + t1), e, f, g]
  | st => st

/-- Process one 64-byte block: 64 rounds, then add the previous state. -/
def processBlock (h : List Nat) (block : List Nat) : List Nat :=
  let st := (sha256K.zip (schedule (toWords block))).foldl sha256Round h
  (h.zip st).map (fun p => w32 (p.1 + p.2))

/-- Split a byte list into 64-byte chunks (the `Nat` is recursion fuel,
always instantiated with the length of the list). -/
def toBlocks : Nat → List Nat → List (List Nat)
  | 0, _ => []
  | _, [] => []
  | fuel + 1, l => l.take 64 :: toBlocks fuel (l.drop 64)

/-- SHA-256 of a byte list, as 32 bytes.  Models Go's `crypto/sha256`
(`hasher.Write` of the whole message followed by `hasher.Sum(nil)`). -/
def sha256 (msg : List Nat) : List Nat :=
  let padded := padMsg msg
  (((toBlocks padded.length padded).foldl processBlock sha256InitState).map wordToBytes).flatten

/-! ## Uppercase hexadecimal, Go's `fmt.Sprintf("%X", hash)` -/

/-- Uppercase hexadecimal digit (byte value of `0`-`9`, `A`-`F`). -/
def hexDigit (n : Nat) : Nat := if n < 10 then 48 + n else 55 + n

/-- Uppercase hexadecimal rendering of a byte list, two digits per byte;
models `fmt.Sprintf("%X", hash)` on a `[]byte`. -/
def toHex (bs : List Nat) : List Nat :=
  (bs.map (fun b => [hexDigit (b / 16), hexDigit (b % 16)])).flatten

/-! ## Filename escaping -/

/-- The Go source's `escape`:
`strings.NewReplacer("\\", "\\\\", "\"", "\\\"").Replace(x)`.
Both patterns are single bytes (0x5C and 0x22) and replacements are not
rescanned, so the replacer acts byte by byte. -/
def escape : List Nat → List Nat
  | [] => []
  | b :: rest =>
    (if b = 92 then [92, 92] else if b = 34 then [92, 34] else [b]) ++ escape rest

/-- The escaping rule as worded by the spec: every backslash becomes two
backslashes, every double-quote becomes backslash-double-quote, and no
other byte is transformed.  Stated independently of `escape` so that the
two can be compared. -/
def escapeSpec (s : List Nat) : List Nat :=
  (s.map (fun b => if b = 92 then [92, 92] else if b = 34 then [92, 34] else [b])).flatten

/-- Modelled from the spec: the inverse unescaping rule (`\\` back to `\`,
`\"` back to `"`), which the repository itself does not implement. -/
def unescape : List Nat → List Nat
  | [] => []
  | [b] => [b]
  | b :: b' :: rest =>
    if b = 92 ∧ (b' = 92 ∨ b' = 34) then b' :: unescape rest
    else b :: unescape (b' :: rest)

/-! ## Go maps and `sort.Strings` -/

/-- Insertion into an association list with overwrite, modelling assignment
`m[k] = v` on a Go `map[string]string`. -/
def insertA (k v : List Nat) : List (List Nat × List Nat) → List (List Nat × List Nat)
  | [] => [(k, v)]
  | (k', v') :: rest => if k' = k then (k, v) :: rest else (k', v') :: insertA k v rest

/-- Lookup in an association list, modelling `m[k]` on a Go map (with the
zero value for an absent key, which never occurs in this development). -/
def lookupA (k : List Nat) : List (List Nat × List Nat) → List Nat
  | [] => []
  | (k', v) :: rest => if k' = k then v else lookupA k rest

/-- The keys of an association list. -/
def keysOf (m : List (List Nat × List Nat)) : List (List Nat) := m.map Prod.fst

/-- Go's string comparison `x <= y` on raw bytes, as used by `sort.Strings`. -/
def strLeB : List Nat → List Nat → Bool
  | [], _ => true
  | _ :: _, [] => false
  | a :: l, b :: m => if a < b then true else if b < a then false else strLeB l m

def strLe (x y : List Nat) : Prop := strLeB x y = true

instance : DecidableRel strLe := fun x y => instDecidableEqBool (strLeB x y) true

/-- The sorted key list of one of the two Go maps: `sort.Strings` applied to
the keys, ascending by raw bytes.  (`HashDir` extracts the keys by map
iteration, whose order is irrelevant after sorting.) -/
def sortKeys (m : List (List Nat × List Nat)) : List (List Nat) :=
  List.insertionSort strLe (keysOf m)

/-! ## The directory tree model and `HashDir` -/

/-- The errors `HashDir`/`HashFile` can return: the `errors.New` value for a
non-directory, or an I/O error bubbled up from the filesystem (identified
here by an opaque numeric code, since only propagation matters). -/
inductive DirErr where
  | notADirectory
  | ioError (code : Nat)
deriving DecidableEq

instance {α β : Type} [DecidableEq α] [DecidableEq β] : DecidableEq (Except α β) :=
  fun a b =>
    match a, b with
    | .error x, .error y => decidable_of_iff (x = y) (by simp)
    | .ok x, .ok y => decidable_of_iff (x = y) (by simp)
    | .error _, .ok _ => isFalse (by simp)
    | .ok _, .error _ => isFalse (by simp)

/-- One filesystem object.  `nondir` is anything whose `Stat` reports
`IsDir() == false`, carrying the outcome of reading its bytes; `dir` is a
directory, carrying the outcome of enumerating its children (name/child
pairs in the filesystem's native order). -/
inductive Node where
  | nondir (contents : Except DirErr (List Nat))
  | dir (listing : Except DirErr (List (List Nat × Node)))

/-- Go `HashFile`: read the file's bytes (propagating a read error) and
return their SHA-256. -/
def hashFile (contents : Except DirErr (List Nat)) : Except DirErr (List Nat) :=
  match contents with
  | .error e => .error e
  | .ok bs => .ok (sha256 bs)

/-- One section of the pseudo-file: for each key of the map in sorted order,
the line `<hex digest> SPACE QUOTE <escaped name> QUOTE NEWLINE` (bytes
32, 34, 10), modelling one of the two emission loops of `HashDir`. -/
def renderSection (m : List (List Nat × List Nat)) : List Nat :=
  ((sortKeys m).map (fun k => lookupA k m ++ [32, 34] ++ escape k ++ [34, 10])).flatten

/-- The pseudo-file built by `HashDir` from the two maps: the directory
section, then the separator line consisting of `=` (byte 61) and a newline,
then the file section. -/
def pseudoFile (dirs files : List (List Nat × List Nat)) : List Nat :=
  renderSection dirs ++ [61, 10] ++ renderSection files

mutual

/-- Go `HashDir`.  A non-directory yields `errors.New("not a directory")`;
a failed enumeration propagates its error; otherwise the children are
accumulated into the `dirs` and `files` maps by `collect` (any child
failure propagating immediately) and the SHA-256 of the pseudo-file is
returned. -/
def hashDir : Node → Except DirErr (List Nat)
  | .nondir _ => .error .notADirectory
  | .dir (.error e) => .error e
  | .dir (.ok children) =>
    match collect children ([], []) with
    | .error e => .error e
    | .ok (dirs, files) => .ok (sha256 (pseudoFile dirs files))

/-- The `for _, x := range contents` loop of `HashDir`: directories are
hashed recursively with `HashDir` and recorded in the `dirs` map as
uppercase hex, non-directories are hashed with `HashFile` and recorded in
the `files` map; the first error aborts the whole loop. -/
def collect : List (List Nat × Node) →
    (List (List Nat × List Nat) × List (List Nat × List Nat)) →
    Except DirErr (List (List Nat × List Nat) × List (List Nat × List Nat))
  | [], acc => .ok acc
  | (name, c) :: rest, (ds, fs) =>
    match c with
    | .dir l =>
      match hashDir (.dir l) with
      | .error e => .error e
      | .ok h => collect rest (insertA name (toHex h) ds, fs)
    | .nondir contents =>
      match hashFile contents with
      | .error e => .error e
      | .ok h => collect rest (ds, insertA name (toHex h) fs)

end

/-- The digest (or error) of one child as computed inside the loop:
`HashDir` for a directory, `HashFile` for anything else. -/
def childHash : Node → Except DirErr (List Nat)
  | .dir l => hashDir (.dir l)
  | .nondir contents => hashFile contents

/-- A byte that `fmt.Sprintf` with the `X` verb can emit: an uppercase
hexadecimal digit. -/
def isHexUpper (c : Nat) : Prop := (48 <= c && c <= 57) = true ∨ (65 <= c && c <= 70) = true

/-- A well-formed hex digest field: 64 bytes, all uppercase hex digits. -/
def goodHex (v : List Nat) : Prop := v.length = 64 ∧ ∀ c ∈ v, isHexUpper c

/-- Two association lists that denote the same Go map: same key multiset and
the same lookup function. -/
def MapEquiv (m m' : List (List Nat × List Nat)) : Prop :=
  List.Perm (keysOf m) (keysOf m') ∧ ∀ k, lookupA k m = lookupA k m'

/-- Componentwise `MapEquiv` on the `(dirs, files)` accumulator pair. -/
def AccEquiv (a a' : List (List Nat × List Nat) × List (List Nat × List Nat)) : Prop :=
  MapEquiv a.1 a'.1 ∧ MapEquiv a.2 a'.2

/-! ## The concrete scenario tree of the spec -/

/-- File `sub/a.txt` of the spec scenario, with byte content `hi`. -/
def aTxtFile : Node := .nondir (.ok [104, 105])

/-- Directory `root/sub` of the spec scenario, containing only `a.txt`. -/
def subDir : Node := .dir (.ok [([97, 46, 116, 120, 116], aTxtFile)])

/-- File `root/empty` of the spec scenario, with zero bytes. -/
def emptyFile : Node := .nondir (.ok [])

/-- Directory `root/` of the spec scenario, containing the subdirectory
`sub` and the file `empty`, enumerated in that order. -/
def rootDir : Node :=
  .dir (.ok [([115, 117, 98], subDir), ([101, 109, 112, 116, 121], emptyFile)])

set_option maxRecDepth 2000000

/-! ## Facts about the SHA-256 embedding -/

theorem sha256Round_length (st : List Nat) (kw : Nat × Nat) :
    (sha256Round st kw).length = st.length := by
  unfold sha256Round
  split
  · simp
  · rfl

theorem foldl_sha256Round_length (l : List (Nat × Nat)) :
    ∀ st : List Nat, (l.foldl sha256Round st).length = st.length := by
  induction l with
  | nil => intro st; rfl
  | cons kw l ih => intro st; rw [List.foldl_cons, ih, sha256Round_length]

theorem processBlock_length (h b : List Nat) : (processBlock h b).length = h.length := by
  simp [processBlock, foldl_sha256Round_length]

theorem foldl_processBlock_length (bs : List (List Nat)) :
    ∀ st : List Nat, (bs.foldl processBlock st).length = st.length := by
  induction bs with
  | nil => intro st; rfl
  | cons b bs ih => intro st; rw [List.foldl_cons, ih, processBlock_length]

theorem flatten_map_wordToBytes_length (l : List Nat) :
    ((l.map wordToBytes).flatten).length = 4 * l.length := by
  induction l with
  | nil => rfl
  | cons w l ih => simp [wordToBytes, ih]; omega

/-- Every digest produced by the embedded SHA-256 is 32 bytes long. -/
theorem sha256_length (msg : List Nat) : (sha256 msg).length = 32 := by
  unfold sha256
  rw [flatten_map_wordToBytes_length, foldl_processBlock_length]
  rfl

/-- Every element of an embedded SHA-256 digest is a byte value. -/
theorem sha256_lt (msg : List Nat) : ∀ b ∈ sha256 msg, b < 256 := by
  intro b hb
  simp only [sha256, List.mem_flatten, List.mem_map] at hb
  obtain ⟨l, ⟨w, hw, rfl⟩, hbl⟩ := hb
  simp only [wordToBytes, List.mem_cons, List.not_mem_nil, or_false] at hbl
  rcases hbl with h | h | h | h <;> omega

theorem toHex_length (bs : List Nat) : (toHex bs).length = 2 * bs.length := by
  induction bs with
  | nil => rfl
  | cons b bs ih => simp [toHex] at ih ⊢; omega

theorem isHexUpper_hexDigit (n : Nat) (h : n < 16) : isHexUpper (hexDigit n) := by
  unfold isHexUpper hexDigit
  split
  · left; simp; omega
  · right; simp; omega

theorem toHex_isHexUpper (bs : List Nat) (hbs : ∀ b ∈ bs, b < 256) :
    ∀ c ∈ toHex bs, isHexUpper c := by
  intro c hc
  simp only [toHex, List.mem_flatten, List.mem_map] at hc
  obtain ⟨l, ⟨b, hb, rfl⟩, hcl⟩ := hc
  have hblt : b < 256 := hbs b hb
  simp only [List.mem_cons, List.not_mem_nil, or_false] at hcl
  rcases hcl with h | h <;> subst h <;> exact isHexUpper_hexDigit _ (by omega)

/-- The hex field stored in the maps for any digest is well formed. -/
theorem goodHex_toHex_sha256 (m : List Nat) : goodHex (toHex (sha256 m)) := by
  refine ⟨?_, toHex_isHexUpper _ (sha256_lt m)⟩
  rw [toHex_length, sha256_length]

/-! ## Order facts about Go string comparison -/

theorem strLeB_total : ∀ x y : List Nat, strLeB x y = true ∨ strLeB y x = true
  | [], _ => Or.inl rfl
  | _ :: _, [] => Or.inr rfl
  | a :: l, b :: m => by
    by_cases hab : a < b
    · left; simp [strLeB, hab]
    · by_cases hba : b < a
      · right; simp [strLeB, hba]
      · rcases strLeB_total l m with h | h
        · left; simp [strLeB, hab, hba, h]
        · right; simp [strLeB, hab, hba, h]

theorem strLeB_trans : ∀ x y z : List Nat,
    strLeB x y = true → strLeB y z = true → strLeB x z = true
  | [], _, _, _, _ => rfl
  | _ :: _, [], _, hxy, _ => by simp [strLeB] at hxy
  | _ :: _, _ :: _, [], _, hyz => by simp [strLeB] at hyz
  | a :: l, b :: m, c :: n, hxy, hyz => by
    simp only [strLeB] at hxy hyz ⊢
    split_ifs at hxy hyz ⊢ <;>
      first
        | rfl
        | exact strLeB_trans l m n hxy hyz
        | omega

theorem strLeB_antisymm : ∀ x y : List Nat,
    strLeB x y = true → strLeB y x = true → x = y
  | [], [], _, _ => rfl
  | [], _ :: _, _, hyx => by simp [strLeB] at hyx
  | _ :: _, [], hxy, _ => by simp [strLeB] at hxy
  | a :: l, b :: m, hxy, hyx => by
    by_cases hab : a < b
    · simp [strLeB, hab, Nat.lt_asymm hab] at hyx
    · by_cases hba : b < a
      · simp [strLeB, hba, Nat.lt_asymm hba] at hxy
      · have hlm : strLeB l m = true := by simpa [strLeB, hab, hba] using hxy
        have hml : strLeB m l = true := by simpa [strLeB, hab, hba] using hyx
        rw [show a = b by omega, strLeB_antisymm l m hlm hml]

instance : IsTotal (List Nat) strLe := ⟨strLeB_total⟩

instance : IsTrans (List Nat) strLe := ⟨strLeB_trans⟩

instance : IsAntisymm (List Nat) strLe := ⟨strLeB_antisymm⟩

/-! ## Association list facts -/

theorem keysOf_insertA (k v : List Nat) (m : List (List Nat × List Nat)) :
    keysOf (insertA k v m) = if k ∈ keysOf m then keysOf m else keysOf m ++ [k] := by
  induction m with
  | nil => simp [insertA, keysOf]
  | cons kv rest ih =>
    obtain ⟨k', v'⟩ := kv
    by_cases h : k' = k
    · subst h; simp [insertA, keysOf]
    · simp only [insertA, if_neg h, keysOf, List.map_cons] at ih ⊢
      rw [ih]
      have hkk : ¬ k = k' := fun hh => h hh.symm
      have : (k ∈ k' :: List.map Prod.fst rest) ↔ (k ∈ List.map Prod.fst rest) := by
        simp [List.mem_cons, hkk]
      by_cases hk : k ∈ List.map Prod.fst rest
      · simp [hk, this]
      · simp [hk, this]

theorem lookupA_insertA (j k v : List Nat) (m : List (List Nat × List Nat)) :
    lookupA j (insertA k v m) = if k = j then v else lookupA j m := by
  induction m with
  | nil => simp [insertA, lookupA]
  | cons kv rest ih =>
    obtain ⟨k', v'⟩ := kv
    by_cases h : k' = k
    · subst h
      simp only [insertA, if_pos rfl, lookupA]
      by_cases hj : k' = j
      · subst hj; simp
      · simp [hj]
    · simp only [insertA, if_neg h, lookupA]
      by_cases hj : k' = j
      · have hkj : ¬ k = j := fun hh => h (hj.trans hh.symm)
        simp [hj, hkj]
      · simp [hj, ih]

theorem mem_insertA (kv : List Nat × List Nat) (k v : List Nat) :
    ∀ m : List (List Nat × List Nat), kv ∈ insertA k v m → kv = (k, v) ∨ kv ∈ m
  | [], h => Or.inl (by simpa [insertA] using h)
  | (k', v') :: rest, h => by
    by_cases hk : k' = k
    · simp only [insertA, if_pos hk] at h
      rcases List.mem_cons.1 h with h1 | h1
      · exact Or.inl h1
      · exact Or.inr (List.mem_cons_of_mem _ h1)
    · simp only [insertA, if_neg hk] at h
      rcases List.mem_cons.1 h with h1 | h1
      · exact Or.inr (h1 ▸ List.mem_cons_self _ _)
      · rcases mem_insertA kv k v rest h1 with h2 | h2
        · exact Or.inl h2
        · exact Or.inr (List.mem_cons_of_mem _ h2)

theorem lookupA_mem (k : List Nat) :
    ∀ m : List (List Nat × List Nat), k ∈ keysOf m → (k, lookupA k m) ∈ m
  | [], h => by simp [keysOf] at h
  | (k', v') :: rest, h => by
    by_cases hk : k' = k
    · subst hk; simp [lookupA]
    · have h1 : k = k' ∨ k ∈ keysOf rest := by simpa [keysOf] using h
      rcases h1 with h1 | h1
      · exact absurd h1.symm hk
      · simp only [lookupA, if_neg hk]
        exact List.mem_cons_of_mem _ (lookupA_mem k rest h1)

/-! ## Step equations of the embedded `HashDir` -/

theorem collect_nil (acc : List (List Nat × List Nat) × List (List Nat × List Nat)) :
    collect [] acc = .ok acc := rfl

theorem collect_cons_dir (n : List Nat) (li : Except DirErr (List (List Nat × Node)))
    (rest : List (List Nat × Node)) (ds fs : List (List Nat × List Nat)) :
    collect ((n, .dir li) :: rest) (ds, fs) =
      match hashDir (.dir li) with
      | .error e => .error e
      | .ok h => collect rest (insertA n (toHex h) ds, fs) := rfl

theorem collect_cons_nondir (n : List Nat) (c : Except DirErr (List Nat))
    (rest : List (List Nat × Node)) (ds fs : List (List Nat × List Nat)) :
    collect ((n, .nondir c) :: rest) (ds, fs) =
      match hashFile c with
      | .error e => .error e
      | .ok h => collect rest (ds, insertA n (toHex h) fs) := rfl

theorem hashDir_dir_ok (l : List (List Nat × Node)) :
    hashDir (.dir (.ok l)) =
      match collect l ([], []) with
      | .error e => .error e
      | .ok (dirs, files) => .ok (sha256 (pseudoFile dirs files)) := rfl

/-! ## Escaping facts -/

theorem escape_cons (b : Nat) (rest : List Nat) :
    escape (b :: rest) =
      (if b = 92 then [92, 92] else if b = 34 then [92, 34] else [b]) ++ escape rest := rfl

theorem mem_escape {c : Nat} {s : List Nat} (h : c ∈ escape s) : c = 92 ∨ c ∈ s := by
  induction s with
  | nil => simp [escape] at h
  | cons b rest ih =>
    rw [escape_cons] at h
    rcases List.mem_append.1 h with h' | h'
    · by_cases h92 : b = 92
      · rw [if_pos h92] at h'
        exact Or.inl (by simpa using h')
      · by_cases h34 : b = 34
        · rw [if_neg h92, if_pos h34] at h'
          have hc : c = 92 ∨ c = 34 := by simpa using h'
          rcases hc with hc | hc
          · exact Or.inl hc
          · exact Or.inr (by simp [hc, h34])
        · rw [if_neg h92, if_neg h34] at h'
          have hc : c = b := by simpa using h'
          exact Or.inr (by simp [hc])
    · rcases ih h' with h'' | h''
      · exact Or.inl h''
      · exact Or.inr (List.mem_cons_of_mem _ h'')

/-! ## Resolved step equations -/

theorem collect_cons_dir_error {n : List Nat} {li : Except DirErr (List (List Nat × Node))}
    {rest : List (List Nat × Node)} {ds fs : List (List Nat × List Nat)} {e : DirErr}
    (hh : hashDir (.dir li) = .error e) :
    collect ((n, .dir li) :: rest) (ds, fs) = .error e := by
  rw [collect_cons_dir, hh]

theorem collect_cons_dir_ok {n : List Nat} {li : Except DirErr (List (List Nat × Node))}
    {rest : List (List Nat × Node)} {ds fs : List (List Nat × List Nat)} {h : List Nat}
    (hh : hashDir (.dir li) = .ok h) :
    collect ((n, .dir li) :: rest) (ds, fs) = collect rest (insertA n (toHex h) ds, fs) := by
  rw [collect_cons_dir, hh]

theorem collect_cons_nondir_error {n : List Nat} {co : Except DirErr (List Nat)}
    {rest : List (List Nat × Node)} {ds fs : List (List Nat × List Nat)} {e : DirErr}
    (hh : hashFile co = .error e) :
    collect ((n, .nondir co) :: rest) (ds, fs) = .error e := by
  rw [collect_cons_nondir, hh]

theorem collect_cons_nondir_ok {n : List Nat} {co : Except DirErr (List Nat)}
    {rest : List (List Nat × Node)} {ds fs : List (List Nat × List Nat)} {h : List Nat}
    (hh : hashFile co = .ok h) :
    collect ((n, .nondir co) :: rest) (ds, fs) = collect rest (ds, insertA n (toHex h) fs) := by
  rw [collect_cons_nondir, hh]

theorem hashDir_dir_collect_ok {l : List (List Nat × Node)}
    {ds fs : List (List Nat × List Nat)} (hc : collect l ([], []) = .ok (ds, fs)) :
    hashDir (.dir (.ok l)) = .ok (sha256 (pseudoFile ds fs)) := by
  rw [hashDir_dir_ok, hc]

theorem hashDir_dir_collect_error {l : List (List Nat × Node)} {e : DirErr}
    (hc : collect l ([], []) = .error e) :
    hashDir (.dir (.ok l)) = .error e := by
  rw [hashDir_dir_ok, hc]

theorem hashDir_dir_ok_inv {l : List (List Nat × Node)} {d : List Nat}
    (h : hashDir (.dir (.ok l)) = .ok d) :
    ∃ ds fs, collect l ([], []) = .ok (ds, fs) ∧ d = sha256 (pseudoFile ds fs) := by
  rw [hashDir_dir_ok] at h
  cases hc : collect l ([], []) with
  | error e => rw [hc] at h; cases h
  | ok r =>
    obtain ⟨ds, fs⟩ := r
    rw [hc] at h
    exact ⟨ds, fs, rfl, (Except.ok.inj h).symm⟩

/-! ## Map equivalence machinery -/

theorem mapEquiv_refl (m : List (List Nat × List Nat)) : MapEquiv m m :=
  ⟨List.Perm.refl _, fun _ => rfl⟩

theorem mapEquiv_trans {a b c : List (List Nat × List Nat)}
    (h1 : MapEquiv a b) (h2 : MapEquiv b c) : MapEquiv a c :=
  ⟨h1.1.trans h2.1, fun k => (h1.2 k).trans (h2.2 k)⟩

theorem accEquiv_refl (a : List (List Nat × List Nat) × List (List Nat × List Nat)) :
    AccEquiv a a := ⟨mapEquiv_refl _, mapEquiv_refl _⟩

theorem accEquiv_trans {a b c : List (List Nat × List Nat) × List (List Nat × List Nat)}
    (h1 : AccEquiv a b) (h2 : AccEquiv b c) : AccEquiv a c :=
  ⟨mapEquiv_trans h1.1 h2.1, mapEquiv_trans h1.2 h2.2⟩

theorem mapEquiv_insertA {m m' : List (List Nat × List Nat)} (h : MapEquiv m m')
    (k v : List Nat) : MapEquiv (insertA k v m) (insertA k v m') := by
  obtain ⟨hkeys, hlook⟩ := h
  constructor
  · rw [keysOf_insertA, keysOf_insertA]
    have hmem : (k ∈ keysOf m) ↔ (k ∈ keysOf m') := hkeys.mem_iff
    by_cases hk : k ∈ keysOf m
    · rw [if_pos hk, if_pos (hmem.1 hk)]; exact hkeys
    · rw [if_neg hk, if_neg (fun hh => hk (hmem.2 hh))]
      exact hkeys.append (List.Perm.refl [k])
  · intro j
    rw [lookupA_insertA, lookupA_insertA]
    by_cases hj : k = j
    · simp [hj]
    · simp [hj, hlook j]

theorem mem_keysOf_insertA {j k : List Nat} (hne : j ≠ k) (v : List Nat)
    (m : List (List Nat × List Nat)) : (j ∈ keysOf (insertA k v m)) ↔ j ∈ keysOf m := by
  rw [keysOf_insertA]
  by_cases h : k ∈ keysOf m
  · simp [h]
  · simp [h, List.mem_append, hne]

theorem insertA_comm {k1 k2 : List Nat} (hne : k1 ≠ k2) (v1 v2 : List Nat)
    (m : List (List Nat × List Nat)) :
    MapEquiv (insertA k2 v2 (insertA k1 v1 m)) (insertA k1 v1 (insertA k2 v2 m)) := by
  have hne' : k2 ≠ k1 := fun hh => hne hh.symm
  constructor
  · have hm2 : (k2 ∈ keysOf (insertA k1 v1 m)) ↔ (k2 ∈ keysOf m) :=
      mem_keysOf_insertA hne' v1 m
    have hm1 : (k1 ∈ keysOf (insertA k2 v2 m)) ↔ (k1 ∈ keysOf m) :=
      mem_keysOf_insertA hne v2 m
    by_cases h1 : k1 ∈ keysOf m <;> by_cases h2 : k2 ∈ keysOf m
    · rw [keysOf_insertA, if_pos (hm2.mpr h2), keysOf_insertA, if_pos h1,
        keysOf_insertA, if_pos (hm1.mpr h1), keysOf_insertA, if_pos h2]
    · rw [keysOf_insertA, if_neg (fun hh => h2 (hm2.mp hh)), keysOf_insertA, if_pos h1,
        keysOf_insertA, if_pos (hm1.mpr h1), keysOf_insertA, if_neg h2]
    · rw [keysOf_insertA, if_pos (hm2.mpr h2), keysOf_insertA, if_neg h1,
        keysOf_insertA, if_neg (fun hh => h1 (hm1.mp hh)), keysOf_insertA, if_pos h2]
    · rw [keysOf_insertA, if_neg (fun hh => h2 (hm2.mp hh)), keysOf_insertA, if_neg h1,
        keysOf_insertA, if_neg (fun hh => h1 (hm1.mp hh)), keysOf_insertA, if_neg h2,
        List.append_assoc, List.append_assoc]
      exact List.Perm.append_left (keysOf m) (List.Perm.swap k2 k1 [])
  · intro j
    rw [lookupA_insertA, lookupA_insertA, lookupA_insertA, lookupA_insertA]
    by_cases hj2 : k2 = j
    · have hj1 : ¬ k1 = j := fun hh => hne (hh.trans hj2.symm)
      simp [hj2, hj1]
    · simp [hj2]

/-! ## Accumulator congruence and permutation invariance of the loop -/

theorem collect_congr : ∀ (l : List (List Nat × Node))
    (a a' : List (List Nat × List Nat) × List (List Nat × List Nat)),
    AccEquiv a a' → ∀ r, collect l a = .ok r →
    ∃ r', collect l a' = .ok r' ∧ AccEquiv r r'
  | [], a, a', hE, r, hr => by
    rw [collect_nil] at hr
    injection hr with hh
    subst hh
    exact ⟨a', collect_nil a', hE⟩
  | (n, c) :: rest, a, a', hE, r, hr => by
    obtain ⟨ds, fs⟩ := a
    obtain ⟨ds', fs'⟩ := a'
    cases c with
    | dir li =>
      cases hh : hashDir (.dir li) with
      | error e => rw [collect_cons_dir_error hh] at hr; cases hr
      | ok h =>
        rw [collect_cons_dir_ok hh] at hr
        obtain ⟨r', hr', hE'⟩ :=
          collect_congr rest (insertA n (toHex h) ds, fs) (insertA n (toHex h) ds', fs')
            ⟨mapEquiv_insertA hE.1 n (toHex h), hE.2⟩ r hr
        exact ⟨r', by rw [collect_cons_dir_ok hh]; exact hr', hE'⟩
    | nondir co =>
      cases hh : hashFile co with
      | error e => rw [collect_cons_nondir_error hh] at hr; cases hr
      | ok h =>
        rw [collect_cons_nondir_ok hh] at hr
        obtain ⟨r', hr', hE'⟩ :=
          collect_congr rest (ds, insertA n (toHex h) fs) (ds', insertA n (toHex h) fs')
            ⟨hE.1, mapEquiv_insertA hE.2 n (toHex h)⟩ r hr
        exact ⟨r', by rw [collect_cons_nondir_ok hh]; exact hr', hE'⟩

theorem collect_perm {l l' : List (List Nat × Node)} (hperm : List.Perm l l') :
    (l.map Prod.fst).Nodup →
    ∀ (a : List (List Nat × List Nat) × List (List Nat × List Nat)) r,
    collect l a = .ok r → ∃ r', collect l' a = .ok r' ∧ AccEquiv r r' := by
  induction hperm with
  | nil =>
    intro _ a r hr
    exact ⟨r, hr, accEquiv_refl r⟩
  | @cons x t t' p ih =>
    intro hnd a r hr
    obtain ⟨n, c⟩ := x
    obtain ⟨ds, fs⟩ := a
    have hnd' : (t.map Prod.fst).Nodup := (List.nodup_cons.1 hnd).2
    cases c with
    | dir li =>
      cases hh : hashDir (.dir li) with
      | error e => rw [collect_cons_dir_error hh] at hr; cases hr
      | ok h =>
        rw [collect_cons_dir_ok hh] at hr
        obtain ⟨r', hr', hE'⟩ := ih hnd' _ r hr
        exact ⟨r', by rw [collect_cons_dir_ok hh]; exact hr', hE'⟩
    | nondir co =>
      cases hh : hashFile co with
      | error e => rw [collect_cons_nondir_error hh] at hr; cases hr
      | ok h =>
        rw [collect_cons_nondir_ok hh] at hr
        obtain ⟨r', hr', hE'⟩ := ih hnd' _ r hr
        exact ⟨r', by rw [collect_cons_nondir_ok hh]; exact hr', hE'⟩
  | @swap x y t =>
    intro hnd a r hr
    obtain ⟨nx, cx⟩ := x
    obtain ⟨ny, cy⟩ := y
    obtain ⟨ds, fs⟩ := a
    have hne : ny ≠ nx := by
      have := (List.nodup_cons.1 hnd).1
      simp only [List.map_cons, List.mem_cons] at this
      exact fun hh => this (Or.inl hh)
    cases cy with
    | dir liy =>
      cases hhy : hashDir (.dir liy) with
      | error e => rw [collect_cons_dir_error hhy] at hr; cases hr
      | ok hy =>
        rw [collect_cons_dir_ok hhy] at hr
        cases cx with
        | dir lix =>
          cases hhx : hashDir (.dir lix) with
          | error e => rw [collect_cons_dir_error hhx] at hr; cases hr
          | ok hx =>
            rw [collect_cons_dir_ok hhx] at hr
            obtain ⟨r', hr', hE'⟩ :=
              collect_congr t
                (insertA nx (toHex hx) (insertA ny (toHex hy) ds), fs)
                (insertA ny (toHex hy) (insertA nx (toHex hx) ds), fs)
                ⟨insertA_comm hne (toHex hy) (toHex hx) ds, mapEquiv_refl fs⟩ r hr
            refine ⟨r', ?_, hE'⟩
            rw [collect_cons_dir_ok hhx, collect_cons_dir_ok hhy]
            exact hr'
        | nondir cox =>
          cases hhx : hashFile cox with
          | error e => rw [collect_cons_nondir_error hhx] at hr; cases hr
          | ok hx =>
            rw [collect_cons_nondir_ok hhx] at hr
            refine ⟨r, ?_, accEquiv_refl r⟩
            rw [collect_cons_nondir_ok hhx, collect_cons_dir_ok hhy]
            exact hr
    | nondir coy =>
      cases hhy : hashFile coy with
      | error e => rw [collect_cons_nondir_error hhy] at hr; cases hr
      | ok hy =>
        rw [collect_cons_nondir_ok hhy] at hr
        cases cx with
        | dir lix =>
          cases hhx : hashDir (.dir lix) with
          | error e => rw [collect_cons_dir_error hhx] at hr; cases hr
          | ok hx =>
            rw [collect_cons_dir_ok hhx] at hr
            refine ⟨r, ?_, accEquiv_refl r⟩
            rw [collect_cons_dir_ok hhx, collect_cons_nondir_ok hhy]
            exact hr
        | nondir cox =>
          cases hhx : hashFile cox with
          | error e => rw [collect_cons_nondir_error hhx] at hr; cases hr
          | ok hx =>
            rw [collect_cons_nondir_ok hhx] at hr
            obtain ⟨r', hr', hE'⟩ :=
              collect_congr t
                (ds, insertA nx (toHex hx) (insertA ny (toHex hy) fs))
                (ds, insertA ny (toHex hy) (insertA nx (toHex hx) fs))
                ⟨mapEquiv_refl ds, insertA_comm hne (toHex hy) (toHex hx) fs⟩ r hr
            refine ⟨r', ?_, hE'⟩
            rw [collect_cons_nondir_ok hhx, collect_cons_nondir_ok hhy]
            exact hr'
  | trans p1 p2 ih1 ih2 =>
    intro hnd a r hr
    obtain ⟨r1, hr1, hE1⟩ := ih1 hnd a r hr
    have hnd2 := ((p1.map Prod.fst).nodup_iff).1 hnd
    obtain ⟨r2, hr2, hE2⟩ := ih2 hnd2 a r1 hr1
    exact ⟨r2, hr2, accEquiv_trans hE1 hE2⟩

/-! ## The pseudo-file depends only on the map denotations -/

theorem sortKeys_eq_of_mapEquiv {m m' : List (List Nat × List Nat)} (h : MapEquiv m m') :
    sortKeys m = sortKeys m' := by
  exact @List.eq_of_perm_of_sorted _ strLe _ _ _
    (((List.perm_insertionSort strLe (keysOf m)).trans h.1).trans
      (List.perm_insertionSort strLe (keysOf m')).symm)
    (List.sorted_insertionSort strLe (keysOf m))
    (List.sorted_insertionSort strLe (keysOf m'))

theorem renderSection_eq_of_mapEquiv {m m' : List (List Nat × List Nat)} (h : MapEquiv m m') :
    renderSection m = renderSection m' := by
  unfold renderSection
  rw [sortKeys_eq_of_mapEquiv h]
  simp only [h.2]

theorem pseudoFile_eq_of_accEquiv {d f d' f' : List (List Nat × List Nat)}
    (h : AccEquiv (d, f) (d', f')) : pseudoFile d f = pseudoFile d' f' := by
  unfold pseudoFile
  rw [renderSection_eq_of_mapEquiv h.1, renderSection_eq_of_mapEquiv h.2]

/-- C5: the digest is a pure deterministic function of the tree (hashing the
same tree twice gives the same digest, trivially so in this functional
embedding), and for any directory listing whose names are distinct (as
filesystem enumerations always are), permuting the enumeration order yields
the identical digest. -/
theorem hashDir_deterministic_order_independent :
    (∀ t : Node, hashDir t = hashDir t) ∧
    ∀ (l l' : List (List Nat × Node)), List.Perm l l' → (l.map Prod.fst).Nodup →
      ∀ d, hashDir (.dir (.ok l)) = .ok d → hashDir (.dir (.ok l')) = .ok d := by
  refine ⟨fun _ => rfl, ?_⟩
  intro l l' hperm hnd d hd
  obtain ⟨ds, fs, hc, rfl⟩ := hashDir_dir_ok_inv hd
  obtain ⟨r', hr', hE'⟩ := collect_perm hperm hnd ([], []) (ds, fs) hc
  obtain ⟨ds', fs'⟩ := r'
  rw [hashDir_dir_collect_ok hr', ← pseudoFile_eq_of_accEquiv hE']

/-- Witness for C5: a directory with files `a` (empty) and `b` (one byte),
enumerated in either order, yields the digest of the canonical listing with
the `a` line first. -/
theorem hashDir_order_independent_witness :
    hashDir (.dir (.ok [([98], .nondir (.ok [104])), ([97], .nondir (.ok []))])) =
      .ok (sha256 ([61, 10] ++ toHex (sha256 []) ++ [32, 34, 97, 34, 10] ++
        toHex (sha256 [104]) ++ [32, 34, 98, 34, 10])) :=
  hashDir_deterministic_order_independent.2
    [([97], .nondir (.ok [])), ([98], .nondir (.ok [104]))]
    [([98], .nondir (.ok [104])), ([97], .nondir (.ok []))]
    (List.Perm.swap ([98], Node.nondir (Except.ok [104])) ([97], Node.nondir (Except.ok [])) [])
    (by decide) _ (by decide)

/-- C7: invoking the directory hasher on anything whose `Stat` reports a
non-directory returns the `not a directory` error, whatever the contents
and whether or not they are readable: no crash, no fallback to file
hashing. -/
theorem hashDir_nondir_error :
    ∀ contents : Except DirErr (List Nat),
      hashDir (.nondir contents) = .error .notADirectory :=
  fun _ => rfl

/-! ## Every stored digest field is 64 uppercase hex characters -/

theorem hashDir_ok_sha : ∀ {t : Node} {d : List Nat},
    hashDir t = .ok d → ∃ msg, d = sha256 msg := by
  intro t d h
  cases t with
  | nondir co =>
    rw [show hashDir (.nondir co) = Except.error .notADirectory from rfl] at h
    cases h
  | dir li =>
    cases li with
    | error e =>
      rw [show hashDir (.dir (.error e)) = Except.error e from rfl] at h
      cases h
    | ok children =>
      obtain ⟨ds, fs, _, rfl⟩ := hashDir_dir_ok_inv h
      exact ⟨pseudoFile ds fs, rfl⟩

theorem hashFile_ok_sha : ∀ {co : Except DirErr (List Nat)} {d : List Nat},
    hashFile co = .ok d → ∃ msg, d = sha256 msg := by
  intro co d h
  cases co with
  | error e => rw [show hashFile (.error e) = Except.error e from rfl] at h; cases h
  | ok bs => exact ⟨bs, (Except.ok.inj h).symm⟩

theorem collect_good : ∀ (l : List (List Nat × Node))
    (ds fs ds' fs' : List (List Nat × List Nat)),
    (∀ kv ∈ ds, goodHex kv.2) → (∀ kv ∈ fs, goodHex kv.2) →
    collect l (ds, fs) = .ok (ds', fs') →
    (∀ kv ∈ ds', goodHex kv.2) ∧ (∀ kv ∈ fs', goodHex kv.2)
  | [], ds, fs, ds', fs', hds, hfs, hr => by
    rw [collect_nil] at hr
    injection hr with hh
    rw [Prod.mk.injEq] at hh
    obtain ⟨h1, h2⟩ := hh
    exact ⟨h1 ▸ hds, h2 ▸ hfs⟩
  | (n, c) :: rest, ds, fs, ds', fs', hds, hfs, hr => by
    cases c with
    | dir li =>
      cases hh : hashDir (.dir li) with
      | error e => rw [collect_cons_dir_error hh] at hr; cases hr
      | ok h =>
        rw [collect_cons_dir_ok hh] at hr
        obtain ⟨msg, rfl⟩ := hashDir_ok_sha hh
        refine collect_good rest _ _ ds' fs' ?_ hfs hr
        intro kv hkv
        rcases mem_insertA kv n (toHex (sha256 msg)) ds hkv with h1 | h1
        · rw [h1]; exact goodHex_toHex_sha256 msg
        · exact hds kv h1
    | nondir co =>
      cases hh : hashFile co with
      | error e => rw [collect_cons_nondir_error hh] at hr; cases hr
      | ok h =>
        rw [collect_cons_nondir_ok hh] at hr
        obtain ⟨msg, rfl⟩ := hashFile_ok_sha hh
        refine collect_good rest _ _ ds' fs' hds ?_ hr
        intro kv hkv
        rcases mem_insertA kv n (toHex (sha256 msg)) fs hkv with h1 | h1
        · rw [h1]; exact goodHex_toHex_sha256 msg
        · exact hfs kv h1

theorem isHexUpper_ne {c : Nat} (h : isHexUpper c) : c ≠ 13 ∧ c ≠ 10 ∧ c ≠ 61 := by
  rcases h with h | h <;> simp only [Bool.and_eq_true, decide_eq_true_eq] at h <;> omega

theorem renderSection_no13 {m : List (List Nat × List Nat)}
    (hvals : ∀ k ∈ sortKeys m, goodHex (lookupA k m))
    (hkeys : ∀ k ∈ keysOf m, 13 ∉ k) : 13 ∉ renderSection m := by
  intro hmem
  unfold renderSection at hmem
  rw [List.mem_flatten] at hmem
  obtain ⟨line, hline, h13⟩ := hmem
  rw [List.mem_map] at hline
  obtain ⟨k, hk, rfl⟩ := hline
  have hkm : k ∈ keysOf m := (List.mem_insertionSort strLe).1 hk
  rcases List.mem_append.1 h13 with h | h
  · rcases List.mem_append.1 h with h | h
    · rcases List.mem_append.1 h with h | h
      · exact (isHexUpper_ne ((hvals k hk).2 13 h)).1 rfl
      · simp at h
    · rcases mem_escape h with h | h
      · omega
      · exact hkeys k hkm h
  · simp at h

theorem getLast?_append10 (A B : List Nat) (h : B.getLast? = some 10) :
    (A ++ B).getLast? = some 10 := by
  have hB : B ≠ [] := by intro hB; rw [hB] at h; cases h
  rw [List.getLast?_append_of_ne_nil A hB, h]

theorem renderSection_getLast (m : List (List Nat × List Nat)) :
    renderSection m = [] ∨ (renderSection m).getLast? = some 10 := by
  unfold renderSection
  induction sortKeys m with
  | nil => exact Or.inl rfl
  | cons k ks ih =>
    rw [List.map_cons, List.flatten_cons]
    rcases ih with ih | ih
    · rw [ih, List.append_nil]
      right
      have : lookupA k m ++ [32, 34] ++ escape k ++ [34, 10] =
          (lookupA k m ++ [32, 34] ++ escape k ++ [34]) ++ [10] := by
        simp [List.append_assoc]
      rw [this, List.getLast?_concat]
    · right
      exact getLast?_append10 _ _ ih

theorem pseudoFile_getLast (ds fs : List (List Nat × List Nat)) :
    (pseudoFile ds fs).getLast? = some 10 := by
  unfold pseudoFile
  rcases renderSection_getLast fs with h | h
  · rw [h, List.append_nil]
    exact getLast?_append10 _ _ rfl
  · exact getLast?_append10 _ _ h

/-- C3: for any directory whose children all hash successfully, the canonical
listing hashed by `HashDir` is exactly: one line per subdirectory in sorted
order, each line being the 64-character uppercase-hex digest, a space (32), a
quote (34), the escaped name, a quote and a single newline (10); then exactly
one separator line `=\n` (61, 10) regardless of either section being empty;
then the file lines in the same format; ending at the last newline with no
trailing content and with no carriage return (13) introduced by the format
(a 13 can only appear inside a filename that itself contains byte 13). -/
theorem canonical_listing_shape (l : List (List Nat × Node))
    (ds fs : List (List Nat × List Nat))
    (hc : collect l ([], []) = .ok (ds, fs)) :
    hashDir (.dir (.ok l)) = .ok (sha256 (pseudoFile ds fs)) ∧
    pseudoFile ds fs = renderSection ds ++ [61, 10] ++ renderSection fs ∧
    renderSection ds =
      ((sortKeys ds).map (fun k => lookupA k ds ++ [32, 34] ++ escape k ++ [34, 10])).flatten ∧
    renderSection fs =
      ((sortKeys fs).map (fun k => lookupA k fs ++ [32, 34] ++ escape k ++ [34, 10])).flatten ∧
    List.Sorted strLe (sortKeys ds) ∧
    List.Sorted strLe (sortKeys fs) ∧
    (∀ k ∈ sortKeys ds, goodHex (lookupA k ds)) ∧
    (∀ k ∈ sortKeys fs, goodHex (lookupA k fs)) ∧
    (ds = [] → pseudoFile ds fs = 61 :: 10 :: renderSection fs) ∧
    (fs = [] → pseudoFile ds fs = renderSection ds ++ [61, 10]) ∧
    ((∀ k ∈ keysOf ds, 13 ∉ k) → (∀ k ∈ keysOf fs, 13 ∉ k) → 13 ∉ pseudoFile ds fs) ∧
    (pseudoFile ds fs).getLast? = some 10 := by
  have hg := collect_good l [] [] ds fs
    (fun kv h => absurd h (List.not_mem_nil kv))
    (fun kv h => absurd h (List.not_mem_nil kv)) hc
  have hvd : ∀ k ∈ sortKeys ds, goodHex (lookupA k ds) := by
    intro k hk
    exact hg.1 (k, lookupA k ds)
      (lookupA_mem k ds ((List.mem_insertionSort strLe).1 hk))
  have hvf : ∀ k ∈ sortKeys fs, goodHex (lookupA k fs) := by
    intro k hk
    exact hg.2 (k, lookupA k fs)
      (lookupA_mem k fs ((List.mem_insertionSort strLe).1 hk))
  refine ⟨hashDir_dir_collect_ok hc, rfl, rfl, rfl,
    List.sorted_insertionSort strLe _, List.sorted_insertionSort strLe _, hvd, hvf,
    fun h => by subst h; rfl,
    fun h => by
      subst h
      unfold pseudoFile
      rw [show renderSection [] = ([] : List Nat) from rfl, List.append_nil],
    ?_, pseudoFile_getLast ds fs⟩
  intro hd13 hf13 hmem
  unfold pseudoFile at hmem
  rcases List.mem_append.1 hmem with h | h
  · rcases List.mem_append.1 h with h | h
    · exact renderSection_no13 hvd hd13 h
    · simp at h
  · exact renderSection_no13 hvf hf13 h

/-- Witness for C3: a directory with the empty subdirectory `d` (100) and
the empty file `f` (102); the loop produces the two singleton maps and the
digest is the hash of their pseudo-file. -/
theorem canonical_listing_shape_witness :
    collect [([100], Node.dir (Except.ok [])), ([102], Node.nondir (Except.ok []))] ([], []) =
      .ok ([([100], toHex (sha256 [61, 10]))], [([102], toHex (sha256 []))]) ∧
    hashDir (.dir (.ok [([100], Node.dir (Except.ok [])),
        ([102], Node.nondir (Except.ok []))])) =
      .ok (sha256 (pseudoFile [([100], toHex (sha256 [61, 10]))]
        [([102], toHex (sha256 []))])) :=
  ⟨by decide, (canonical_listing_shape _ _ _ (by decide)).1⟩

/-! ## Error short-circuiting -/

theorem collect_error_of_child : ∀ (pre : List (List Nat × Node)) (n : List Nat) (c : Node)
    (post : List (List Nat × Node)) (e : DirErr)
    (acc : List (List Nat × List Nat) × List (List Nat × List Nat)),
    (∀ p ∈ pre, ∃ h, childHash p.2 = .ok h) → childHash c = .error e →
    collect (pre ++ (n, c) :: post) acc = .error e
  | [], n, c, post, e, acc, _, hc => by
    obtain ⟨ds, fs⟩ := acc
    cases c with
    | dir li => exact collect_cons_dir_error hc
    | nondir co => exact collect_cons_nondir_error hc
  | (pn, pc) :: pre, n, c, post, e, acc, hpre, hc => by
    obtain ⟨ds, fs⟩ := acc
    obtain ⟨h, hph⟩ := hpre (pn, pc) (List.mem_cons_self _ _)
    have hrest : ∀ p ∈ pre, ∃ hh, childHash p.2 = .ok hh :=
      fun p hp => hpre p (List.mem_cons_of_mem _ hp)
    cases pc with
    | dir li =>
      rw [List.cons_append, collect_cons_dir_ok hph]
      exact collect_error_of_child pre n c post e _ hrest hc
    | nondir co =>
      rw [List.cons_append, collect_cons_nondir_ok hph]
      exact collect_error_of_child pre n c post e _ hrest hc

/-- C8: if every child before some failing child hashes successfully and that
child's hash (by `HashDir` for a directory, `HashFile` otherwise) fails with
error `e`, then `HashDir` of the enclosing directory returns exactly `e`:
the error propagates unchanged, no digest is produced, and the children
after the failing one never enter the result. -/
theorem hashDir_error_shortcircuit (pre : List (List Nat × Node)) (n : List Nat) (c : Node)
    (post : List (List Nat × Node)) (e : DirErr)
    (hpre : ∀ p ∈ pre, ∃ h, childHash p.2 = .ok h)
    (hc : childHash c = .error e) :
    hashDir (.dir (.ok (pre ++ (n, c) :: post))) = .error e :=
  hashDir_dir_collect_error (collect_error_of_child pre n c post e ([], []) hpre hc)

/-- Witness for C8: the middle child of three is unreadable with I/O error 7;
the whole directory hash is exactly that error. -/
theorem hashDir_error_shortcircuit_witness :
    hashDir (.dir (.ok [([97], Node.nondir (Except.ok [])),
      ([98], Node.nondir (Except.error (DirErr.ioError 7))),
      ([99], Node.nondir (Except.ok [1]))])) = .error (DirErr.ioError 7) :=
  hashDir_error_shortcircuit [([97], Node.nondir (Except.ok []))] [98]
    (Node.nondir (Except.error (DirErr.ioError 7)))
    [([99], Node.nondir (Except.ok [1]))] (DirErr.ioError 7)
    (by
      intro p hp
      rw [List.mem_singleton] at hp
      subst hp
      exact ⟨sha256 [], rfl⟩)
    rfl

/-- C10: children are classified by the two-way `IsDir` test only: the model
has exactly the two node kinds, every non-directory child is hashed with
`HashFile` (first conjunct), lands in the `files` map (second conjunct), and
consequently a directory holding a single non-directory child of content
`bs` hashes the file section line built from `SHA-256(bs)` (third
conjunct); nothing is skipped and there is no third entry kind. -/
theorem nondir_children_to_hashFile :
    (∀ contents, childHash (.nondir contents) = hashFile contents) ∧
    (∀ (n : List Nat) (contents : Except DirErr (List Nat))
        (rest : List (List Nat × Node)) (ds fs : List (List Nat × List Nat)),
      collect ((n, .nondir contents) :: rest) (ds, fs) =
        match hashFile contents with
        | .error e => .error e
        | .ok h => collect rest (ds, insertA n (toHex h) fs)) ∧
    (∀ (n bs : List Nat),
      hashDir (.dir (.ok [(n, .nondir (.ok bs))])) =
        .ok (sha256 ([61, 10] ++ toHex (sha256 bs) ++ [32, 34] ++ escape n ++ [34, 10]))) := by
  refine ⟨fun _ => rfl, fun n c rest ds fs => collect_cons_nondir n c rest ds fs, ?_⟩
  intro n bs
  have hcol : collect [(n, Node.nondir (Except.ok bs))] ([], []) =
      .ok ([], [(n, toHex (sha256 bs))]) := rfl
  rw [hashDir_dir_collect_ok hcol]
  have hpf : pseudoFile [] [(n, toHex (sha256 bs))] =
      [61, 10] ++ toHex (sha256 bs) ++ [32, 34] ++ escape n ++ [34, 10] := by
    unfold pseudoFile renderSection sortKeys keysOf
    simp [List.insertionSort, List.orderedInsert, lookupA, List.append_assoc]
  rw [hpf]

/-- C9: an empty directory's canonical listing is exactly the two bytes
`=` and newline, so every empty directory (the embedded digest is a function
of the node alone, independent of where in a tree it sits) has the one fixed
digest SHA-256 of `=\n`, spelled out in the second conjunct. -/
theorem empty_dir_digest :
    hashDir (.dir (.ok [])) = .ok (sha256 [61, 10]) ∧
    sha256 [61, 10] = [12, 230, 58, 252, 30, 146, 238, 130, 116, 67, 0, 167, 120, 229, 35, 185,
      244, 42, 83, 254, 153, 32, 27, 211, 159, 184, 226, 222, 130, 150, 82, 151] :=
  ⟨rfl, by decide⟩

/-- C2: in the concrete scenario, the digest of `sub` is the SHA-256 of the
exact byte sequence `=\n` followed by the uppercase hex of SHA-256 of `hi`,
a space, quote, `a.txt`, quote, newline; the digest of `root` is the SHA-256
of the `sub` line (uppercase hex of the `sub` digest), the separator, and the
`empty` line (uppercase hex of SHA-256 of the empty byte string); and a file
digest is the plain SHA-256 of the raw file bytes. -/
theorem scenario_digests :
    hashDir subDir =
      .ok (sha256 ([61, 10] ++ toHex (sha256 [104, 105]) ++ [32, 34] ++
        [97, 46, 116, 120, 116] ++ [34, 10])) ∧
    hashDir rootDir =
      .ok (sha256 (toHex (sha256 ([61, 10] ++ toHex (sha256 [104, 105]) ++ [32, 34] ++
          [97, 46, 116, 120, 116] ++ [34, 10])) ++ [32, 34] ++ [115, 117, 98] ++ [34, 10] ++
        [61, 10] ++ toHex (sha256 []) ++ [32, 34] ++
        [101, 109, 112, 116, 121] ++ [34, 10])) ∧
    (∀ bs : List Nat, hashFile (.ok bs) = .ok (sha256 bs)) :=
  ⟨by decide, by decide, fun _ => rfl⟩

/-- C4: the source's `escape` replaces every backslash (92) by two
backslashes, every double-quote (34) by backslash-double-quote, and passes
every other byte through unchanged (first conjunct, against the spec-worded
`escapeSpec`), and in particular maps the name `a"b\c` to `a\"b\\c`
(second conjunct). -/
theorem escape_matches_spec :
    (∀ s, escape s = escapeSpec s) ∧
    escape [97, 34, 98, 92, 99] = [97, 92, 34, 98, 92, 92, 99] := by
  constructor
  · intro s
    induction s with
    | nil => rfl
    | cons b rest ih => simp [escape, escapeSpec] at ih ⊢; rw [ih]
  · decide

/-- C6: unescaping (the spec's inverse rule) recovers every filename from
its escaped form, hence `escape` is injective and the quoted field of a
canonical-listing line determines the original name. -/
theorem escape_roundtrip_injective :
    (∀ s, unescape (escape s) = s) ∧ Function.Injective escape := by
  have rt : ∀ s, unescape (escape s) = s := by
    intro s
    induction s with
    | nil => rfl
    | cons b rest ih =>
      by_cases h92 : b = 92
      · subst h92
        simp only [escape_cons, if_pos rfl, List.cons_append, List.nil_append]
        simp [unescape, ih]
      · by_cases h34 : b = 34
        · subst h34
          simp only [escape_cons, if_neg h92, if_pos rfl, List.cons_append, List.nil_append]
          simp [unescape, ih]
        · simp only [escape_cons, if_neg h92, if_neg h34, List.cons_append, List.nil_append]
          cases her : escape rest with
          | nil =>
            have hrest : rest = [] := by rw [← ih, her]; rfl
            rw [hrest]
            rfl
          | cons c t =>
            simp [unescape, h92]
            rw [← her]
            exact ih
  exact ⟨rt, fun a b hab => by rw [← rt a, ← rt b, hab]⟩

/-- C1 (divergence witness): on a directory containing the two empty files
named `"` (byte 34) and `#` (byte 35), the code emits the `"` line before
the `#` line, because `sort.Strings` sorts the raw names (34 < 35); but the
escaped forms compare the other way round (escape of `#` is 35, escape of
`"` is 92, 34, and 35-first is the strict escaped-byte order), so the
emitted order is not the lexicographic order of the escaped names that the
package documentation and the spec prescribe. -/
theorem sort_uses_raw_not_escaped_bytes :
    hashDir (.dir (.ok [([34], .nondir (.ok [])), ([35], .nondir (.ok []))])) =
      .ok (sha256 ([61, 10] ++ toHex (sha256 []) ++ [32, 34, 92, 34, 34, 10] ++
        toHex (sha256 []) ++ [32, 34, 35, 34, 10])) ∧
    strLe (escape [35]) (escape [34]) ∧ escape [35] ≠ escape [34] :=
  ⟨by decide, by decide, by decide⟩

/-- Witness for C6: the round trip on the concrete name `a"b\c` and the
injectivity instance at a concrete pair. -/
theorem escape_roundtrip_injective_witness :
    unescape (escape [97, 34, 98, 92, 99]) = [97, 34, 98, 92, 99] ∧
    ([97] : List Nat) = [97] :=
  ⟨escape_roundtrip_injective.1 [97, 34, 98, 92, 99],
   escape_roundtrip_injective.2 (by decide)⟩
